import Mathlib

/-!
Verification development for the string-formatting and string-marshalling
core of `qiling/os/utils.py` (class `QlOsUtils`).

The Python source is shallowly embedded:

* guest memory (`ql.mem`) is a total byte map `Nat → Nat`;
* Python `str` values are `List Char` (sequences of code points);
* Python `bytes`/`bytearray` values are `List Nat` (byte values);
* the unbounded `while` loop of `read_string` is given an explicit fuel
  parameter and returns `Option`, `none` meaning the scan did not find the
  terminator within the fuel;
* Python exceptions (IndexError from `args[i]`, TypeError/ValueError from
  the `%` operator) become `Except` error values;
* `bytes.decode(errors="ignore")` is the UTF-8 decoder that silently skips
  ill-formed subsequences (CPython's lenient decode);
* the host `%` substitution operator is modelled for the fragment of
  printf-style conversions exercised here: `%%`, an optional `#` flag, an
  optional single `h`/`l`/`L` length modifier, and the conversions
  `d`/`i`/`s`/`x`; any other conversion is rejected with a format error,
  matching CPython's ValueError on unsupported format characters (in
  particular a second `l`, as in `%llx`, is an error for the host operator,
  which is why the code rewrites `%llx` before substituting);
* the in-place mutation of the argument list by `__common_printf` is
  modelled by returning the updated list.
-/

/-- Guest memory: a total map from addresses to byte values. -/
def Mem : Type := Nat → Nat

/-- `ql.mem.read(addr, len)`: read `len` consecutive bytes. -/
def memRead (m : Mem) (addr len : Nat) : List Nat :=
  (List.range len).map fun i => m (addr + i)

/-- `ql.mem.write(addr, bs)`: overwrite `bs.length` bytes at `addr`. -/
def memWrite (m : Mem) (addr : Nat) (bs : List Nat) : Mem :=
  fun a => if addr ≤ a ∧ a < addr + bs.length then bs.getD (a - addr) 0 else m a

/-- `ql.mem.read_ptr`: a little-endian pointer-sized read of `psize` bytes. -/
def readPtr (m : Mem) (psize addr : Nat) : Nat :=
  (memRead m addr psize).foldr (fun b acc => acc * 256 + b) 0

/-- The loop of `QlOsUtils.read_string`: repeatedly read a terminator-length
chunk, stopping on the first chunk equal to the terminator and accumulating
all earlier chunks.  `fuel` bounds the number of iterations; the Python
loop has no such bound and simply diverges (or faults) when no terminator
is found. -/
def readStringBytes (m : Mem) (term : List Nat) : Nat → Nat → Option (List Nat)
  | 0, _ => none
  | fuel + 1, addr =>
    let ch := memRead m addr term.length
    if ch = term then some []
    else
      match readStringBytes m term fuel (addr + term.length) with
      | none => none
      | some bs => some (ch ++ bs)

/-- One pass of CPython's UTF-8 decoder with `errors="ignore"`: well-formed
sequences become code points, ill-formed subsequences are silently dropped
(the maximal valid subpart of a truncated sequence is skipped as a unit).
`fuel` only needs to be at least the length of the byte list. -/
def utf8DecodeIgnoreAux : Nat → List Nat → List Char
  | 0, _ => []
  | _ + 1, [] => []
  | fuel + 1, b1 :: rest =>
    if b1 < 0x80 then Char.ofNat b1 :: utf8DecodeIgnoreAux fuel rest
    else if b1 < 0xC2 then utf8DecodeIgnoreAux fuel rest
    else if b1 < 0xE0 then
      match rest with
      | [] => []
      | b2 :: rest2 =>
        if 0x80 ≤ b2 ∧ b2 < 0xC0 then
          Char.ofNat ((b1 - 0xC0) * 0x40 + (b2 - 0x80)) :: utf8DecodeIgnoreAux fuel rest2
        else utf8DecodeIgnoreAux fuel rest
    else if b1 < 0xF0 then
      match rest with
      | [] => []
      | b2 :: rest2 =>
        if (0x80 ≤ b2 ∧ b2 < 0xC0) ∧ (b1 = 0xE0 → 0xA0 ≤ b2) ∧ (b1 = 0xED → b2 < 0xA0) then
          match rest2 with
          | [] => []
          | b3 :: rest3 =>
            if 0x80 ≤ b3 ∧ b3 < 0xC0 then
              Char.ofNat ((b1 - 0xE0) * 0x1000 + (b2 - 0x80) * 0x40 + (b3 - 0x80)) ::
                utf8DecodeIgnoreAux fuel rest3
            else utf8DecodeIgnoreAux fuel rest2
        else utf8DecodeIgnoreAux fuel rest
    else if b1 < 0xF5 then
      match rest with
      | [] => []
      | b2 :: rest2 =>
        if (0x80 ≤ b2 ∧ b2 < 0xC0) ∧ (b1 = 0xF0 → 0x90 ≤ b2) ∧ (b1 = 0xF4 → b2 < 0x90) then
          match rest2 with
          | [] => []
          | b3 :: rest3 =>
            if 0x80 ≤ b3 ∧ b3 < 0xC0 then
              match rest3 with
              | [] => []
              | b4 :: rest4 =>
                if 0x80 ≤ b4 ∧ b4 < 0xC0 then
                  Char.ofNat
                      ((b1 - 0xF0) * 0x40000 + (b2 - 0x80) * 0x1000 + (b3 - 0x80) * 0x40 +
                        (b4 - 0x80)) ::
                    utf8DecodeIgnoreAux fuel rest4
                else utf8DecodeIgnoreAux fuel rest3
            else utf8DecodeIgnoreAux fuel rest2
        else utf8DecodeIgnoreAux fuel rest
    else utf8DecodeIgnoreAux fuel rest

/-- `bytes.decode(errors="ignore")` as used by `read_string`. -/
def utf8DecodeIgnore (bs : List Nat) : List Char :=
  utf8DecodeIgnoreAux bs.length bs

/-- `QlOsUtils.read_string(ql, address, terminator)`: scan, then decode the
accumulated bytes leniently. -/
def readString (m : Mem) (addr : Nat) (term : List Nat) (fuel : Nat) : Option (List Char) :=
  (readStringBytes m term fuel addr).map utf8DecodeIgnore

/-- `QlOsUtils.read_cstring`: narrow variant, single zero-byte terminator.
The call to `ql.os.stats.log_string` is a fire-and-forget side effect with
no influence on the returned value and is not modelled. -/
def readCString (m : Mem) (addr fuel : Nat) : Option (List Char) :=
  readString m addr [0] fuel

/-- `QlOsUtils.read_wstring`: wide variant, double zero-byte terminator,
followed by `s.replace("\x00", "")`, which removes every null character. -/
def readWString (m : Mem) (addr fuel : Nat) : Option (List Char) :=
  (readString m addr [0, 0] fuel).map (List.filter fun c => c != '\x00')

/-- `format.count("%")` for the single-character separator used here. -/
def countChar (c : Char) (l : List Char) : Nat :=
  l.count c

/-- Python's `str.split(sep)` for a one-character separator: split at every
occurrence, preserving empty pieces. -/
def splitOnChar (c : Char) : List Char → List (List Char)
  | [] => [[]]
  | x :: xs =>
    let r := splitOnChar c xs
    if x = c then [] :: r
    else
      match r with
      | [] => [[x]]
      | h :: t => (x :: h) :: t

/-- `format.split("%")[1:]`: the segment following each `%` sign. -/
def fmtSegments (format : List Char) : List (List Char) :=
  (splitOnChar '%' format).tail

/-- A Python value held in the argument sequence: a raw integer or a
decoded string. -/
inductive PyVal : Type
  | int : Int → PyVal
  | str : List Char → PyVal
deriving DecidableEq

/-- How the `%s`-resolution loop of `__common_printf` can fail: `indexErr`
is Python's IndexError from `args[i]` when the index is out of range,
`memErr` is a memory-read failure inside the string reader (modelled by the
reader returning `none`, which also covers fuel exhaustion), and `typeErr`
is the failure of `ql.mem.read` when the slot does not hold an integer
address. -/
inductive ResolveErr : Type
  | indexErr
  | memErr
  | typeErr
deriving DecidableEq

/-- The string reader selected by `__common_printf`:
`self.read_wstring if wstring else self.read_cstring`. -/
def strReader (m : Mem) (fuel : Nat) (w : Bool) : Nat → Option (List Char) :=
  fun a => if w then readWString m a fuel else readCString m a fuel

/-- The loop `for i, f in enumerate(fmtstr): if f.startswith("s"):
args[i] = read_string(args[i])` of `__common_printf`.  `i` is the position
of the current segment in the full segment list; the updated argument list
is returned in place of the Python in-place mutation. -/
def resolveLoop (rd : Nat → Option (List Char)) :
    List (List Char) → List PyVal → Nat → Except ResolveErr (List PyVal)
  | [], args, _ => .ok args
  | f :: fs, args, i =>
    if f.head? = some 's' then
      match args[i]? with
      | none => .error .indexErr
      | some (.str _) => .error .typeErr
      | some (.int a) =>
        if a < 0 then .error .memErr
        else
          match rd a.toNat with
          | none => .error .memErr
          | some s => resolveLoop rd fs (args.set i (.str s)) (i + 1)
    else resolveLoop rd fs args (i + 1)

/-- Python's `str.replace(pat, repl)` for a nonempty pattern: leftmost,
non-overlapping replacement.  The fuel is the length of the input list;
every step consumes at least one input character, so the fuel never runs
out before the input does. -/
def replaceFromAux (pat repl : List Char) : Nat → List Char → List Char
  | 0, l => l
  | _ + 1, [] => []
  | fuel + 1, c :: rest =>
    if pat ≠ [] ∧ pat.isPrefixOf (c :: rest) then
      repl ++ replaceFromAux pat repl fuel ((c :: rest).drop pat.length)
    else c :: replaceFromAux pat repl fuel rest

/-- Python's `str.replace(pat, repl)` for a nonempty pattern. -/
def replaceFrom (pat repl l : List Char) : List Char :=
  replaceFromAux pat repl l.length l

/-- The two literal rewrites `__common_printf` applies to the format string
before substitution: `%llx` → `%x`, then `%p` → `%#x`. -/
def normalizeFmt (format : List Char) : List Char :=
  replaceFrom ['%', 'p'] ['%', '#', 'x'] (replaceFrom ['%', 'l', 'l', 'x'] ['%', 'x'] format)

/-- Parse one conversion specification after a `%` (the `%%` escape is
handled by the caller): an optional `#` flag, an optional single `h`/`l`/`L`
length modifier, then a supported conversion character.  Returns the flag,
the conversion character, and the number of characters consumed, or `none`
for a conversion the host operator rejects. -/
def parseSpec (l : List Char) : Option (Bool × Char × Nat) :=
  let hash := l.head? = some '#'
  let off1 := if hash then 1 else 0
  let off2 :=
    match (l.drop off1).head? with
    | some c => if c = 'h' ∨ c = 'l' ∨ c = 'L' then off1 + 1 else off1
    | none => off1
  match (l.drop off2).head? with
  | some c => if c = 'd' ∨ c = 'i' ∨ c = 's' ∨ c = 'x' then some (hash, c, off2 + 1) else none
  | none => none

/-- Decimal digits of a natural number. -/
def natToDec (n : Nat) : List Char :=
  Nat.toDigits 10 n

/-- Lowercase hexadecimal digits of a natural number. -/
def natToHex (n : Nat) : List Char :=
  Nat.toDigits 16 n

/-- Python `str(n)` for an integer. -/
def intToDec : Int → List Char
  | Int.ofNat n => natToDec n
  | Int.negSucc n => '-' :: natToDec (n + 1)

/-- Python `"%x" % n` (and, with the flag, `"%#x" % n` or `f"{n:#x}"`):
lowercase hex with a minus sign for negatives and an optional `0x` mark
between the sign and the digits. -/
def intToHex (hash : Bool) : Int → List Char
  | Int.ofNat n => (if hash then ['0', 'x'] else []) ++ natToHex n
  | Int.negSucc n => '-' :: ((if hash then ['0', 'x'] else []) ++ natToHex (n + 1))

/-- Conversion of one argument by the host `%` operator. `none` is the
TypeError raised when a string reaches a numeric conversion. -/
def pyConvert (hash : Bool) (conv : Char) (v : PyVal) : Option (List Char) :=
  if conv = 's' then
    some (match v with | .int n => intToDec n | .str s => s)
  else if conv = 'd' ∨ conv = 'i' then
    match v with
    | .int n => some (intToDec n)
    | .str _ => none
  else if conv = 'x' then
    match v with
    | .int n => some (intToHex hash n)
    | .str _ => none
  else none

/-- How the final substitution `out % tuple(args)` can fail: `arity` covers
both of CPython's "not enough arguments for format string" and "not all
arguments converted during string formatting" TypeErrors, `badSpec` the
ValueError on an unsupported format character, and `typeErr` a conversion
applied to a value of the wrong type. -/
inductive FmtErr : Type
  | arity
  | badSpec
  | typeErr
deriving DecidableEq

/-- The host `%` substitution operator `fmt % tuple(args)`, for the
fragment of printf-style conversions described in the header: literal
characters pass through, `%%` emits a percent sign and consumes no
argument, and every supported conversion consumes exactly one argument in
order.  Left-to-right processing matches CPython: an argument-consuming
conversion with no argument left fails immediately, and leftover arguments
fail once the format string is exhausted. -/
def pyFormatAux : Nat → List Char → List PyVal → Except FmtErr (List Char)
  | _, [], [] => .ok []
  | _, [], _ :: _ => .error .arity
  | 0, _ :: _, _ => .error .badSpec
  | fuel + 1, c :: rest, args =>
    if c = '%' ∧ rest.head? = some '%' then
      match pyFormatAux fuel rest.tail args with
      | .error e => .error e
      | .ok s => .ok ('%' :: s)
    else if c = '%' then
      match parseSpec rest with
      | none => .error .badSpec
      | some (hash, conv, n) =>
        match args with
        | [] => .error .arity
        | a :: args2 =>
          match pyConvert hash conv a with
          | none => .error .typeErr
          | some s =>
            match pyFormatAux fuel (rest.drop n) args2 with
            | .error e => .error e
            | .ok t => .ok (s ++ t)
    else
      match pyFormatAux fuel rest args with
      | .error e => .error e
      | .ok s => .ok (c :: s)

/-- The host `%` substitution operator on a whole format string; the
length of the format string is enough fuel, since every step of
`pyFormatAux` consumes at least one format character. -/
def pyFormat (fmt : List Char) (args : List PyVal) : Except FmtErr (List Char) :=
  pyFormatAux fmt.length fmt args

/-- The number of arguments the host `%` operator consumes from a format
string (its conversion-specifier count, with `%%` consuming none).  On the
unsupported-conversion branch the operator fails before consuming, so the
value there is irrelevant to any successful substitution.  Fueled exactly
like `pyFormatAux`. -/
def specArityAux : Nat → List Char → Nat
  | _, [] => 0
  | 0, _ :: _ => 0
  | fuel + 1, c :: rest =>
    if c = '%' ∧ rest.head? = some '%' then specArityAux fuel rest.tail
    else if c = '%' then
      match parseSpec rest with
      | none => 0
      | some (_, _, n) => 1 + specArityAux fuel (rest.drop n)
    else specArityAux fuel rest

/-- Conversion-specifier count of a format string. -/
def specArity (fmt : List Char) : Nat :=
  specArityAux fmt.length fmt

/-- Errors escaping `QlOsUtils.__common_printf`: a failure of the `%s`
resolution pass or a failure of the final substitution.  Nothing in the
Python function catches either; they propagate to the caller. -/
inductive PrintfErr : Type
  | resolve : ResolveErr → PrintfErr
  | fmt : FmtErr → PrintfErr
deriving DecidableEq

/-- `QlOsUtils.__common_printf(format, args, wstring)`: resolve every `%s`
segment through the chosen string reader, rewrite `%llx` and `%p`, then
apply the host substitution operator. -/
def commonPrintf (m : Mem) (fuel : Nat) (format : List Char) (args : List PyVal)
    (wstring : Bool) : Except PrintfErr (List Char) :=
  match resolveLoop (strReader m fuel wstring) (fmtSegments format) args 0 with
  | .error e => .error (.resolve e)
  | .ok args2 =>
    match pyFormat (normalizeFmt format) args2 with
    | .error e => .error (.fmt e)
    | .ok out => .ok out

/-- `QlOsUtils.va_list(format, ptr)`: count the `%` signs and read that
many pointer-sized values from consecutive slots. -/
def vaList (m : Mem) (psize : Nat) (format : List Char) (ptr : Nat) : List Nat :=
  (List.range (countChar '%' format)).map fun i => readPtr m psize (ptr + i * psize)

/-- UTF-8 encoding of one code point. -/
def utf8EncodeChar (c : Char) : List Nat :=
  let n := c.toNat
  if n < 0x80 then [n]
  else if n < 0x800 then [0xC0 + n / 0x40, 0x80 + n % 0x40]
  else if n < 0x10000 then [0xE0 + n / 0x1000, 0x80 + n / 0x40 % 0x40, 0x80 + n % 0x40]
  else [0xF0 + n / 0x40000, 0x80 + n / 0x1000 % 0x40, 0x80 + n / 0x40 % 0x40, 0x80 + n % 0x40]

/-- `text.encode("utf-8")`. -/
def utf8Encode (l : List Char) : List Nat :=
  (l.map utf8EncodeChar).flatten

/-- UTF-16 little-endian encoding of one code point (surrogate pair for
the supplementary planes). -/
def utf16leEncodeChar (c : Char) : List Nat :=
  let n := c.toNat
  if n < 0x10000 then [n % 256, n / 256]
  else
    let v := n - 0x10000
    let hi := 0xD800 + v / 0x400
    let lo := 0xDC00 + v % 0x400
    [hi % 256, hi / 256, lo % 256, lo / 256]

/-- `text.encode("utf-16le")`. -/
def utf16leEncode (l : List Char) : List Nat :=
  (l.map utf16leEncodeChar).flatten

/-- `QlOsUtils.sprintf(buff, format, args, wstring)`: interpret, append a
null character, encode with the width-appropriate encoding, write to guest
memory, and return the character count of the interpreted text. -/
def sprintf (m : Mem) (fuel buff : Nat) (format : List Char) (args : List PyVal)
    (wstring : Bool) : Except PrintfErr (Mem × Nat) :=
  match commonPrintf m fuel format args wstring with
  | .error e => .error e
  | .ok out =>
    let enc := if wstring then utf16leEncode else utf8Encode
    .ok (memWrite m buff (enc (out ++ ['\x00'])), out.length)

/-- `QlOsUtils.ELLIPSIS_PREF`, the synthetic name marker `__qlva_` for
variadic arguments. -/
def ellipsisPref : List Char :=
  ['_', '_', 'q', 'l', 'v', 'a', '_']

/-- The inner `__assign_arg` of `print_function`: a synthetic or empty name
renders as the bare value, otherwise as `name = value`. -/
def assignArg (name value : List Char) : List Char :=
  let name2 := if ellipsisPref.isPrefixOf name then [] else name
  if name2.isEmpty then value else name2 ++ [' ', '=', ' '] ++ value

/-- The `f'{address:#0{bits // 4 + 2}x}'` rendering used for the address:
`0x`, zeros padding the hex digits to `bits / 4` places, then the digits. -/
def padHexAddr (bits addr : Nat) : List Char :=
  let digits := natToHex addr
  ['0', 'x'] ++ List.replicate (bits / 4 - digits.length) '0' ++ digits

/-- The line built by `QlOsUtils.print_function` before it is handed to the
debug- or info-level logger.  `bits` is `ql.arch.bits`, `verbose` is
`ql.verbose` and `dbgLvl` is `QL_VERBOSE.DEBUG`, whose numeric value lives
outside this module; only the comparison `verbose ≥ dbgLvl` matters here. -/
def renderCall (bits verbose dbgLvl address : Nat) (fname : List Char)
    (pargs : List (List Char × List Char)) (ret : Option PyVal) (passthru : Bool) :
    List Char :=
  let fname2 := if ['h', 'o', 'o', 'k', '_'].isPrefixOf fname then fname.drop 5 else fname
  let fargs := List.intercalate [',', ' '] (pargs.map fun p => assignArg p.1 p.2)
  let rets :=
    match ret with
    | some (.int n) => intToHex true n
    | some (.str s) => s
    | none => []
  let fret := if ret.isSome then [' ', '=', ' '] ++ rets else []
  let fpass := if passthru then [' ', '(', 'P', 'A', 'S', 'S', 'T', 'H', 'R', 'U', ')'] else []
  let faddr := if verbose ≥ dbgLvl then padHexAddr bits address ++ [':', ' '] else []
  faddr ++ fname2 ++ ['('] ++ fargs ++ [')'] ++ fret ++ fpass

deriving instance DecidableEq for Except

/-- All-zero guest memory, used for concrete instances. -/
def m0 : Mem := fun _ => 0

/-- Guest memory holding the narrow string `"hi"` (then zeros) at `0x100`. -/
def hiMemN : Mem := fun a => if a = 0x100 then 0x68 else if a = 0x101 then 0x69 else 0

/-- Guest memory holding the wide (UTF-16LE) string `"hi"` (then zeros) at
`0x100`. -/
def wideMemHi : Mem := fun a => if a = 0x100 then 0x68 else if a = 0x102 then 0x69 else 0

/-- Guest memory holding the single byte `0x41` at address `0` and zeros
everywhere else; in particular it holds `[0x41] ++ [0, 0]` at `0`. -/
def cexMem3 : Mem := fun a => if a = 0 then 0x41 else 0

/-- Guest memory whose byte at address `a` is `a % 256`. -/
def modMem : Mem := fun a => a % 256

/-- A byte sequence `pat` occurs (contiguously) inside `l`. -/
def hasSub (pat : List Nat) : List Nat → Bool
  | [] => pat.isEmpty
  | x :: xs => pat.isPrefixOf (x :: xs) || hasSub pat xs

/-- Split `l` into consecutive chunks of size `k` (with `k ≥ 1` and fuel at
least `l.length`; proof infrastructure, not part of the embedding). -/
def chunksOfAux (k : Nat) : Nat → List Nat → List (List Nat)
  | _, [] => []
  | 0, _ :: _ => []
  | fuel + 1, x :: xs => ((x :: xs).take k) :: chunksOfAux k fuel ((x :: xs).drop k)

/-- Split `l` into consecutive chunks of size `k`. -/
def chunksOf (k : Nat) (l : List Nat) : List (List Nat) :=
  chunksOfAux k l.length l

theorem splitOnChar_length (c : Char) :
    ∀ l : List Char, (splitOnChar c l).length = countChar c l + 1 := by
  intro l
  induction l with
  | nil => simp [splitOnChar, countChar]
  | cons x xs ih =>
    by_cases hx : x = c
    · simp only [splitOnChar, if_pos hx, List.length_cons, countChar, List.count_cons] at *
      simp [hx, ih]
    · cases heq : splitOnChar c xs with
      | nil =>
        rw [heq] at ih
        simp [countChar] at ih
      | cons h t =>
        rw [heq] at ih
        simp only [splitOnChar, if_neg hx, heq, List.length_cons, countChar,
          List.count_cons] at *
        simp [hx, ih]

theorem fmtSegments_length (format : List Char) :
    (fmtSegments format).length = countChar '%' format := by
  have h := splitOnChar_length '%' format
  simp only [fmtSegments, List.length_tail, h]
  omega

theorem memRead_pointwise (m : Mem) (addr n : Nat) (bs : List Nat) (hn : bs.length = n)
    (h : ∀ i, i < n → m (addr + i) = bs.getD i 0) : memRead m addr n = bs := by
  apply List.ext_getElem
  · simp [memRead, hn]
  · intro i h1 h2
    simp only [memRead, List.length_map, List.length_range] at h1
    simp only [memRead, List.getElem_map, List.getElem_range]
    rw [h i h1, List.getD_eq_getElem bs 0 h2]

theorem memWrite_read (m : Mem) (addr : Nat) (bs : List Nat) (i : Nat) (hi : i < bs.length) :
    memWrite m addr bs (addr + i) = bs.getD i 0 := by
  simp only [memWrite]
  rw [if_pos ⟨by omega, by omega⟩]
  congr 1
  omega

theorem isPrefixOf_append_self : ∀ l t : List Nat, l.isPrefixOf (l ++ t) = true := by
  intro l t
  induction l with
  | nil => simp [List.isPrefixOf]
  | cons x xs ih => simp [List.isPrefixOf, ih]

theorem hasSub_empty_pat : ∀ l : List Nat, hasSub [] l = true := by
  intro l
  cases l <;> simp [hasSub, List.isPrefixOf, List.isEmpty]

theorem hasSub_of_decomp (pat : List Nat) :
    ∀ pre post : List Nat, hasSub pat (pre ++ pat ++ post) = true := by
  intro pre post
  induction pre with
  | nil =>
    cases pat with
    | nil => simpa using hasSub_empty_pat post
    | cons y ys =>
      show hasSub (y :: ys) ((y :: ys) ++ post) = true
      have h1 : (y :: ys) ++ post = y :: (ys ++ post) := rfl
      rw [h1]
      show ((y :: ys).isPrefixOf (y :: (ys ++ post)) || hasSub (y :: ys) (ys ++ post)) = true
      rw [← h1, isPrefixOf_append_self]
      simp
  | cons x xs ih =>
    show hasSub pat (x :: (xs ++ pat ++ post)) = true
    show (pat.isPrefixOf (x :: (xs ++ pat ++ post)) || hasSub pat (xs ++ pat ++ post)) = true
    rw [ih]
    simp

theorem chunksOfAux_flatten (k : Nat) (hk : 1 ≤ k) :
    ∀ fuel l, l.length ≤ fuel → (chunksOfAux k fuel l).flatten = l := by
  intro fuel
  induction fuel with
  | zero =>
    intro l hl
    have : l = [] := List.eq_nil_of_length_eq_zero (by omega)
    simp [this, chunksOfAux]
  | succ f ih =>
    intro l hl
    cases l with
    | nil => simp [chunksOfAux]
    | cons x xs =>
      simp only [List.length_cons] at hl
      simp only [chunksOfAux, List.flatten_cons]
      rw [ih ((x :: xs).drop k) (by simp only [List.length_drop, List.length_cons]; omega)]
      exact List.take_append_drop k (x :: xs)

theorem chunksOfAux_length_mem (k : Nat) (hk : 1 ≤ k) :
    ∀ fuel l, l.length ≤ fuel → k ∣ l.length →
      ∀ ch ∈ chunksOfAux k fuel l, ch.length = k := by
  intro fuel
  induction fuel with
  | zero =>
    intro l hl _ ch hch
    have : l = [] := List.eq_nil_of_length_eq_zero (by omega)
    subst this
    simp [chunksOfAux] at hch
  | succ f ih =>
    intro l hl hdvd ch hch
    cases l with
    | nil => simp [chunksOfAux] at hch
    | cons x xs =>
      have hkl : k ≤ (x :: xs).length := Nat.le_of_dvd (by simp) hdvd
      simp only [List.length_cons] at hl hkl
      simp only [chunksOfAux, List.mem_cons] at hch
      rcases hch with h | h
      · subst h
        simp only [List.length_take, List.length_cons]
        omega
      · refine ih _ (by simp only [List.length_drop, List.length_cons]; omega) ?_ ch h
        have h2 : k ∣ (x :: xs).length - k := Nat.dvd_sub' hdvd dvd_rfl
        simpa only [List.length_drop] using h2

theorem chunksOfAux_count (k : Nat) (hk : 1 ≤ k) :
    ∀ fuel l, l.length ≤ fuel → k ∣ l.length →
      (chunksOfAux k fuel l).length = l.length / k := by
  intro fuel
  induction fuel with
  | zero =>
    intro l hl _
    have : l = [] := List.eq_nil_of_length_eq_zero (by omega)
    simp [this, chunksOfAux]
  | succ f ih =>
    intro l hl hdvd
    cases l with
    | nil => simp [chunksOfAux]
    | cons x xs =>
      have hkl : k ≤ (x :: xs).length := Nat.le_of_dvd (by simp) hdvd
      have hdvd2 : k ∣ (x :: xs).length - k := Nat.dvd_sub' hdvd dvd_rfl
      simp only [List.length_cons] at hl hkl hdvd2
      simp only [chunksOfAux, List.length_cons]
      rw [ih ((x :: xs).drop k) (by simp only [List.length_drop, List.length_cons]; omega)
        (by simpa only [List.length_drop, List.length_cons] using hdvd2)]
      simp only [List.length_drop, List.length_cons]
      conv_rhs => rw [Nat.div_eq_sub_div hk hkl]

theorem chunksOfAux_decomp (k : Nat) :
    ∀ fuel l ch, ch ∈ chunksOfAux k fuel l → ∃ pre post, l = pre ++ ch ++ post := by
  intro fuel
  induction fuel with
  | zero =>
    intro l ch hch
    cases l <;> simp [chunksOfAux] at hch
  | succ f ih =>
    intro l ch hch
    cases l with
    | nil => simp [chunksOfAux] at hch
    | cons x xs =>
      simp only [chunksOfAux, List.mem_cons] at hch
      rcases hch with h | h
      · exact ⟨[], (x :: xs).drop k, by rw [h]; simp [List.take_append_drop]⟩
      · rcases ih _ _ h with ⟨pre, post, hpre⟩
        exact ⟨(x :: xs).take k ++ pre, post, by
          conv_lhs => rw [← List.take_append_drop k (x :: xs)]
          rw [hpre]
          simp⟩

theorem readStringBytes_chunks (m : Mem) (term : List Nat) :
    ∀ (chunks : List (List Nat)) (addr fuel : Nat),
      (∀ ch ∈ chunks, ch.length = term.length) →
      (∀ ch ∈ chunks, ch ≠ term) →
      (∀ i, i < chunks.flatten.length + term.length →
        m (addr + i) = (chunks.flatten ++ term).getD i 0) →
      chunks.length < fuel →
      readStringBytes m term fuel addr = some chunks.flatten := by
  intro chunks
  induction chunks with
  | nil =>
    intro addr fuel _ _ hmem hfuel
    cases fuel with
    | zero => omega
    | succ f =>
      simp only [List.flatten_nil, List.length_nil, Nat.zero_add, List.nil_append] at hmem
      have hterm : memRead m addr term.length = term :=
        memRead_pointwise m addr term.length term rfl hmem
      simp [readStringBytes, hterm]
  | cons c cs ih =>
    intro addr fuel hlen hne hmem hfuel
    cases fuel with
    | zero => simp at hfuel
    | succ f =>
      have hclen : c.length = term.length := hlen c (by simp)
      have hcne : c ≠ term := hne c (by simp)
      have hread : memRead m addr term.length = c := by
        apply memRead_pointwise m addr term.length c hclen
        intro i hi
        have hi2 : i < (c :: cs).flatten.length + term.length := by
          simp only [List.flatten_cons, List.length_append]
          omega
        have h3 := hmem i hi2
        rw [h3]
        have hassoc : (c :: cs).flatten ++ term = c ++ (cs.flatten ++ term) := by
          simp [List.flatten_cons, List.append_assoc]
        rw [hassoc, List.getD_append c (cs.flatten ++ term) 0 i (by omega)]
      simp only [readStringBytes, hread, if_neg hcne]
      have hrec : readStringBytes m term f (addr + term.length) = some cs.flatten := by
        apply ih (addr + term.length) f (fun ch hch => hlen ch (by simp [hch]))
          (fun ch hch => hne ch (by simp [hch]))
        · intro i hi
          have hi2 : c.length + i < (c :: cs).flatten.length + term.length := by
            simp only [List.flatten_cons, List.length_append]
            omega
          have h3 := hmem (c.length + i) hi2
          have haddr : addr + term.length + i = addr + (c.length + i) := by
            rw [hclen]
            omega
          rw [haddr, h3]
          have hassoc : (c :: cs).flatten ++ term = c ++ (cs.flatten ++ term) := by
            simp [List.flatten_cons, List.append_assoc]
          rw [hassoc, List.getD_append_right c (cs.flatten ++ term) 0 (c.length + i) (by omega)]
          congr 1
          omega
        · simp only [List.length_cons] at hfuel
          omega
      rw [hrec]
      simp [List.flatten_cons]

theorem utf8DecodeIgnoreAux_ascii :
    ∀ (fuel : Nat) (l : List Char), (∀ c ∈ l, c.toNat < 128) → l.length ≤ fuel →
      utf8DecodeIgnoreAux fuel (l.map Char.toNat) = l := by
  intro fuel
  induction fuel with
  | zero =>
    intro l _ hl
    have : l = [] := List.eq_nil_of_length_eq_zero (by omega)
    simp [this, utf8DecodeIgnoreAux]
  | succ f ih =>
    intro l h hl
    cases l with
    | nil => simp [utf8DecodeIgnoreAux]
    | cons c cs =>
      have hc : c.toNat < 128 := h c (by simp)
      simp only [List.map_cons, utf8DecodeIgnoreAux]
      rw [if_pos (show c.toNat < 0x80 by omega), Char.ofNat_toNat,
        ih cs (fun d hd => h d (by simp [hd])) (by simp only [List.length_cons] at hl; omega)]

theorem utf8DecodeIgnoreAux_wide_filter :
    ∀ (l : List Char) (fuel : Nat), (∀ c ∈ l, 0 < c.toNat ∧ c.toNat < 128) →
      2 * l.length ≤ fuel →
      ((utf8DecodeIgnoreAux fuel ((l.map fun c => [c.toNat, 0]).flatten)).filter
        fun c => c != '\x00') = l := by
  intro l
  induction l with
  | nil =>
    intro fuel _ _
    cases fuel <;> simp [utf8DecodeIgnoreAux]
  | cons c cs ih =>
    intro fuel h hf
    simp only [List.length_cons] at hf
    obtain ⟨f, rfl⟩ : ∃ f, fuel = f + 2 := ⟨fuel - 2, by omega⟩
    have hc := h c (by simp)
    have e1 : utf8DecodeIgnoreAux (f + 2)
        (c.toNat :: 0 :: (cs.map fun c => [c.toNat, 0]).flatten) =
        Char.ofNat c.toNat ::
          utf8DecodeIgnoreAux (f + 1) (0 :: (cs.map fun c => [c.toNat, 0]).flatten) := by
      simp only [utf8DecodeIgnoreAux]
      rw [if_pos (show c.toNat < 0x80 by omega)]
    have e2 : utf8DecodeIgnoreAux (f + 1) (0 :: (cs.map fun c => [c.toNat, 0]).flatten) =
        Char.ofNat 0 :: utf8DecodeIgnoreAux f ((cs.map fun c => [c.toNat, 0]).flatten) := by
      simp only [utf8DecodeIgnoreAux]
      rw [if_pos (show (0 : Nat) < 0x80 by omega)]
    have hshape : ((c :: cs).map fun c => [c.toNat, 0]).flatten =
        c.toNat :: 0 :: (cs.map fun c => [c.toNat, 0]).flatten := by
      simp
    rw [hshape, e1, e2, Char.ofNat_toNat]
    have hnull : (Char.ofNat 0 != '\x00') = false := by decide
    have hcnz : (c != '\x00') = true := by
      simp only [bne_iff_ne, ne_eq]
      intro hceq
      rw [hceq] at hc
      simp at hc
    simp only [List.filter_cons, hnull, hcnz]
    simp only [if_true, if_false, Bool.false_eq_true]
    rw [ih f (fun d hd => h d (by simp [hd])) (by omega)]

theorem utf8Encode_ascii (l : List Char) (h : ∀ c ∈ l, c.toNat < 128) :
    utf8Encode l = l.map Char.toNat := by
  induction l with
  | nil => simp [utf8Encode]
  | cons c cs ih =>
    have hc : c.toNat < 128 := h c (by simp)
    have ih2 := ih fun d hd => h d (by simp [hd])
    have henc : utf8EncodeChar c = [c.toNat] := by
      simp only [utf8EncodeChar]
      rw [if_pos (show c.toNat < 0x80 by omega)]
    simp only [utf8Encode, List.map_cons, List.flatten_cons] at ih2 ⊢
    rw [ih2, henc]
    rfl

theorem utf16leEncode_ascii (l : List Char) (h : ∀ c ∈ l, c.toNat < 128) :
    utf16leEncode l = (l.map fun c => [c.toNat, 0]).flatten := by
  induction l with
  | nil => simp [utf16leEncode]
  | cons c cs ih =>
    have hc : c.toNat < 128 := h c (by simp)
    have ih2 := ih fun d hd => h d (by simp [hd])
    have henc : utf16leEncodeChar c = [c.toNat, 0] := by
      simp only [utf16leEncodeChar]
      rw [if_pos (show c.toNat < 0x10000 by omega)]
      rw [Nat.mod_eq_of_lt (by omega), Nat.div_eq_of_lt (by omega)]
    simp only [utf16leEncode, List.map_cons, List.flatten_cons] at ih2 ⊢
    rw [ih2, henc]

theorem resolveLoop_ok_spec (rd : Nat → Option (List Char)) :
    ∀ (fs : List (List Char)) (args args2 : List PyVal) (k : Nat),
      resolveLoop rd fs args k = .ok args2 →
      args2.length = args.length ∧
      (∀ j, (j < k ∨ k + fs.length ≤ j) → args2[j]? = args[j]?) ∧
      (∀ d, (hd : d < fs.length) →
        ((fs.get ⟨d, hd⟩).head? = some 's' →
          ∃ a s, args[k + d]? = some (.int a) ∧ 0 ≤ a ∧ rd a.toNat = some s ∧
            args2[k + d]? = some (.str s)) ∧
        ((fs.get ⟨d, hd⟩).head? ≠ some 's' → args2[k + d]? = args[k + d]?)) := by
  intro fs
  induction fs with
  | nil =>
    intro args args2 k h
    simp only [resolveLoop] at h
    cases h
    refine ⟨rfl, fun j _ => rfl, fun d hd => ?_⟩
    simp at hd
  | cons f fs2 ih =>
    intro args args2 k h
    by_cases hfs : f.head? = some 's'
    · cases hak : args[k]? with
      | none =>
        simp only [resolveLoop, hfs, if_true, hak] at h
        exact Except.noConfusion h
      | some v =>
        cases v with
        | str t =>
          simp only [resolveLoop, hfs, if_true, hak] at h
          exact Except.noConfusion h
        | int a =>
          by_cases ha : a < 0
          · simp only [resolveLoop, hfs, if_true, hak, ha, if_pos] at h
            exact Except.noConfusion h
          · cases hrd : rd a.toNat with
            | none =>
              simp only [resolveLoop, hfs, if_true, hak, if_neg ha, hrd] at h
              exact Except.noConfusion h
            | some s =>
              simp only [resolveLoop, hfs, if_true, hak, if_neg ha, hrd] at h
              have hklt : k < args.length := by
                by_contra hge
                push_neg at hge
                rw [List.getElem?_eq_none hge] at hak
                cases hak
              obtain ⟨ihl, ihout, ihin⟩ := ih (args.set k (.str s)) args2 (k + 1) h
              have hset_ne : ∀ j, j ≠ k → (args.set k (PyVal.str s))[j]? = args[j]? := by
                intro j hj
                rw [List.getElem?_set, if_neg (fun hh : k = j => hj hh.symm)]
              refine ⟨by rw [ihl, List.length_set], ?_, ?_⟩
              · intro j hj
                have hj2 : j < k + 1 ∨ (k + 1) + fs2.length ≤ j := by
                  rcases hj with hj | hj
                  · exact Or.inl (by omega)
                  · simp only [List.length_cons] at hj
                    exact Or.inr (by omega)
                have hne : j ≠ k := by
                  rcases hj with hj | hj
                  · omega
                  · simp only [List.length_cons] at hj
                    omega
                rw [ihout j hj2, hset_ne j hne]
              · intro d hd
                cases d with
                | zero =>
                  constructor
                  · intro _
                    refine ⟨a, s, by simpa using hak, by omega, hrd, ?_⟩
                    have h0 : args2[k + 0]? = (args.set k (PyVal.str s))[k + 0]? :=
                      ihout (k + 0) (Or.inl (by omega))
                    rw [h0]
                    simp only [Nat.add_zero]
                    rw [List.getElem?_set]
                    simp [hklt]
                  · intro hcon
                    exact absurd hfs (by simpa using hcon)
                | succ d2 =>
                  simp only [List.length_cons] at hd
                  have hd2 : d2 < fs2.length := by omega
                  have harith : k + (d2 + 1) = (k + 1) + d2 := by omega
                  have hget : ((f :: fs2).get ⟨d2 + 1, hd⟩) = fs2.get ⟨d2, hd2⟩ := rfl
                  obtain ⟨ihs, ihns⟩ := ihin d2 hd2
                  constructor
                  · intro hsd
                    rw [hget] at hsd
                    obtain ⟨a2, s2, h1, h2, h3, h4⟩ := ihs hsd
                    rw [hset_ne ((k + 1) + d2) (by omega)] at h1
                    rw [harith]
                    exact ⟨a2, s2, h1, h2, h3, h4⟩
                  · intro hsd
                    rw [hget] at hsd
                    rw [harith, ihns hsd, hset_ne ((k + 1) + d2) (by omega)]
    · simp only [resolveLoop, hfs, if_false] at h
      obtain ⟨ihl, ihout, ihin⟩ := ih args args2 (k + 1) h
      refine ⟨ihl, ?_, ?_⟩
      · intro j hj
        apply ihout j
        rcases hj with hj | hj
        · exact Or.inl (by omega)
        · simp only [List.length_cons] at hj
          exact Or.inr (by omega)
      · intro d hd
        cases d with
        | zero =>
          constructor
          · intro hcon
            exact absurd hcon hfs
          · intro _
            simpa using ihout (k + 0) (Or.inl (by omega))
        | succ d2 =>
          simp only [List.length_cons] at hd
          have hd2 : d2 < fs2.length := by omega
          have harith : k + (d2 + 1) = (k + 1) + d2 := by omega
          have hget : ((f :: fs2).get ⟨d2 + 1, hd⟩) = fs2.get ⟨d2, hd2⟩ := rfl
          obtain ⟨ihs, ihns⟩ := ihin d2 hd2
          constructor
          · intro hsd
            rw [hget] at hsd
            rw [harith]
            exact ihs hsd
          · intro hsd
            rw [hget] at hsd
            rw [harith]
            exact ihns hsd

theorem resolveLoop_no_indexErr (rd : Nat → Option (List Char)) :
    ∀ (fs : List (List Char)) (args : List PyVal) (k : Nat),
      k + fs.length ≤ args.length →
      resolveLoop rd fs args k ≠ .error .indexErr := by
  intro fs
  induction fs with
  | nil =>
    intro args k _ hcontra
    simp [resolveLoop] at hcontra
  | cons f fs2 ih =>
    intro args k hlen hcontra
    simp only [List.length_cons] at hlen
    by_cases hfs : f.head? = some 's'
    · have hk : k < args.length := by omega
      cases hak : args[k]? with
      | none =>
        rw [List.getElem?_eq_getElem hk] at hak
        cases hak
      | some v =>
        cases v with
        | str t =>
          simp only [resolveLoop, hfs, if_true, hak] at hcontra
          cases hcontra
        | int a =>
          by_cases ha : a < 0
          · simp only [resolveLoop, hfs, if_true, hak, ha, if_pos] at hcontra
            simp at hcontra
          · cases hrd : rd a.toNat with
            | none =>
              simp only [resolveLoop, hfs, if_true, hak, if_neg ha, hrd] at hcontra
              cases hcontra
            | some s =>
              simp only [resolveLoop, hfs, if_true, hak, if_neg ha, hrd] at hcontra
              exact ih (args.set k (.str s)) (k + 1)
                (by rw [List.length_set]; omega) hcontra
    · simp only [resolveLoop, hfs, if_false] at hcontra
      exact ih args (k + 1) (by omega) hcontra

theorem pyFormatAux_ok_arity :
    ∀ (fuel : Nat) (fmt : List Char) (args : List PyVal) (s : List Char),
      pyFormatAux fuel fmt args = .ok s → specArityAux fuel fmt = args.length := by
  intro fuel
  induction fuel with
  | zero =>
    intro fmt args s h
    cases fmt with
    | nil =>
      cases args with
      | nil => simp [specArityAux]
      | cons a as => simp [pyFormatAux] at h
    | cons c rest => simp [pyFormatAux] at h
  | succ f ih =>
    intro fmt args s h
    cases fmt with
    | nil =>
      cases args with
      | nil => simp [specArityAux]
      | cons a as => simp [pyFormatAux] at h
    | cons c rest =>
      by_cases h1 : c = '%' ∧ rest.head? = some '%'
      · simp only [pyFormatAux, if_pos h1] at h
        simp only [specArityAux, if_pos h1]
        cases hrec : pyFormatAux f rest.tail args with
        | error e => simp [hrec] at h
        | ok s2 => exact ih rest.tail args s2 hrec
      · by_cases h2 : c = '%'
        · simp only [pyFormatAux, if_neg h1, if_pos h2] at h
          simp only [specArityAux, if_neg h1, if_pos h2]
          cases hps : parseSpec rest with
          | none => simp [hps] at h
          | some t =>
            obtain ⟨hash, conv, n⟩ := t
            simp only [hps] at h ⊢
            cases args with
            | nil => simp at h
            | cons a args2 =>
              cases hcv : pyConvert hash conv a with
              | none => simp [hcv] at h
              | some s2 =>
                simp only [hcv] at h
                cases hrec : pyFormatAux f (rest.drop n) args2 with
                | error e => simp [hrec] at h
                | ok t2 =>
                  have harity := ih (rest.drop n) args2 t2 hrec
                  simp only [harity, List.length_cons]
                  omega
        · simp only [pyFormatAux, if_neg h1, if_neg h2] at h
          simp only [specArityAux, if_neg h1, if_neg h2]
          cases hrec : pyFormatAux f rest args with
          | error e => simp [hrec] at h
          | ok s2 => exact ih rest args s2 hrec

theorem foldr_le_bound :
    ∀ bs : List Nat, (∀ b ∈ bs, b < 256) →
      bs.foldr (fun b acc => acc * 256 + b) 0 < 256 ^ bs.length := by
  intro bs
  induction bs with
  | nil => simp
  | cons b bs2 ih =>
    intro h
    have hb : b < 256 := h b (by simp)
    have ih2 := ih fun d hd => h d (by simp [hd])
    simp only [List.foldr_cons, List.length_cons]
    calc (bs2.foldr (fun b acc => acc * 256 + b) 0) * 256 + b
        < ((bs2.foldr (fun b acc => acc * 256 + b) 0) + 1) * 256 := by omega
      _ ≤ 256 ^ bs2.length * 256 := Nat.mul_le_mul_right 256 (by omega)
      _ = 256 ^ (bs2.length + 1) := by rw [pow_succ]

theorem readPtr_lt (m : Mem) (hm : ∀ a, m a < 256) (psize addr : Nat) :
    readPtr m psize addr < 256 ^ psize := by
  have hlen : (memRead m addr psize).length = psize := by simp [memRead]
  have hb : ∀ b ∈ memRead m addr psize, b < 256 := by
    intro b hbmem
    simp only [memRead, List.mem_map] at hbmem
    obtain ⟨i, _, hi⟩ := hbmem
    rw [← hi]
    exact hm (addr + i)
  have := foldr_le_bound (memRead m addr psize) hb
  rw [hlen] at this
  exact this

theorem flatten_map_singleton (f : Char → Nat) (l : List Char) :
    (l.map fun c => [f c]).flatten = l.map f := by
  induction l with
  | nil => simp
  | cons c cs ih => simp [ih]

theorem flatten_map_pair_length (l : List Char) :
    ((l.map fun c => [c.toNat, 0]).flatten).length = 2 * l.length := by
  induction l with
  | nil => simp
  | cons c cs ih =>
    simp only [List.map_cons, List.flatten_cons, List.length_append, List.length_cons, ih]
    simp
    omega

/-- C1: in `__common_printf`, for every segment of the format string
following a `%` whose first character is `s`, the positional argument at
that segment's index is treated as a memory address and replaced in place
with the string decoded from that address (wide extraction when the wide
flag is set, narrow otherwise); arguments at the positions of all other
segments — and beyond the segment list — are left unchanged.  The in-place
mutation of the Python list is modelled by the returned list `args2`. -/
theorem claimC1_percent_s_resolution (m : Mem) (fuel : Nat) (w : Bool) (format : List Char)
    (args args2 : List PyVal)
    (h : resolveLoop (strReader m fuel w) (fmtSegments format) args 0 = .ok args2) :
    args2.length = args.length ∧
    (∀ d, (hd : d < (fmtSegments format).length) →
      (((fmtSegments format).get ⟨d, hd⟩).head? = some 's' →
        ∃ a s, args[d]? = some (.int a) ∧ 0 ≤ a ∧ strReader m fuel w a.toNat = some s ∧
          args2[d]? = some (.str s)) ∧
      (((fmtSegments format).get ⟨d, hd⟩).head? ≠ some 's' → args2[d]? = args[d]?)) ∧
    (∀ j, (fmtSegments format).length ≤ j → args2[j]? = args[j]?) := by
  obtain ⟨h1, h2, h3⟩ := resolveLoop_ok_spec (strReader m fuel w) (fmtSegments format)
    args args2 0 h
  refine ⟨h1, ?_, ?_⟩
  · intro d hd
    have hin := h3 d hd
    simpa using hin
  · intro j hj
    exact h2 j (Or.inr (by omega))

theorem claimC1_witness :
    ([PyVal.str ['h', 'i']] : List PyVal).length = ([PyVal.int 256] : List PyVal).length :=
  (claimC1_percent_s_resolution hiMemN 10 false ['%', 's'] [PyVal.int 256]
    [PyVal.str ['h', 'i']] (by decide)).1

/-- C2: `va_list` returns exactly as many pointer-sized values as there are
`%` characters in the format string (counted naively, with no `%%` special
case), the i-th value being the little-endian pointer-sized read at
`ptr + i * psize`; when every memory byte is in range, each value fits in
`psize` bytes. -/
theorem claimC2_va_list (m : Mem) (psize : Nat) (format : List Char) (ptr : Nat) :
    (vaList m psize format ptr).length = countChar '%' format ∧
    (∀ i, i < countChar '%' format →
      (vaList m psize format ptr)[i]? = some (readPtr m psize (ptr + i * psize))) ∧
    ((∀ a, m a < 256) → ∀ v ∈ vaList m psize format ptr, v < 256 ^ psize) := by
  refine ⟨by simp [vaList], ?_, ?_⟩
  · intro i hi
    simp [vaList, List.getElem?_map, List.getElem?_range hi]
  · intro hm v hv
    simp only [vaList, List.mem_map] at hv
    obtain ⟨i, _, hi⟩ := hv
    rw [← hi]
    exact readPtr_lt m hm psize _

theorem claimC2_witness :
    (vaList modMem 2 ("a%b%%".toList) 10).length = countChar '%' ("a%b%%".toList) ∧
    (vaList modMem 2 ("a%b%%".toList) 10)[1]? = some (readPtr modMem 2 (10 + 1 * 2)) ∧
    readPtr modMem 2 10 < 256 ^ 2 := by
  obtain ⟨h1, h2, h3⟩ := claimC2_va_list modMem 2 ("a%b%%".toList) 10
  exact ⟨h1, h2 1 (by decide),
    h3 (fun a => Nat.mod_lt a (by omega)) (readPtr modMem 2 10) (by decide)⟩

/-- C3 counterexample: the claim fails as stated when the byte sequence is
not a whole number of terminator-sized chunks.  `cexMem3` holds
`[0x41] ++ [0, 0]` at address `0` (and zeros beyond), `[0x41]` does not
contain the terminator `[0, 0]`, yet the chunk-aligned scan returns the
bytes `[0x41, 0]` — decoding to `"A\x00"`, not to `[0x41]` decoded. -/
theorem claimC3_counterexample :
    hasSub [0, 0] [0x41] = false ∧
    memRead cexMem3 0 3 = [0x41] ++ [0, 0] ∧
    readString cexMem3 0 [0, 0] 10 ≠ some (utf8DecodeIgnore [0x41]) ∧
    readString cexMem3 0 [0, 0] 10 = some ['A', '\x00'] := by
  refine ⟨by decide, by decide, by decide, by decide⟩

/-- C3 (amended): if memory holds `b` followed by the terminator, `b` does
not contain the terminator, and — as the chunked scan requires — the length
of `b` is a whole multiple of the terminator's length, then `read_string`
accumulates exactly the chunks before the first terminator chunk and
returns `b` decoded leniently (the lenient decode itself never fails). -/
theorem claimC3_read_string_amended (m : Mem) (addr fuel : Nat) (term b : List Nat)
    (hdvd : term.length ∣ b.length)
    (hsub : hasSub term b = false)
    (hmem : ∀ i, i < b.length + term.length → m (addr + i) = (b ++ term).getD i 0)
    (hfuel : b.length / term.length < fuel) :
    readString m addr term fuel = some (utf8DecodeIgnore b) := by
  have htermne : term ≠ [] := by
    intro heq
    rw [heq, hasSub_empty_pat] at hsub
    cases hsub
  have hk : 1 ≤ term.length := by
    cases term with
    | nil => exact absurd rfl htermne
    | cons t ts => simp
  have hflat : (chunksOfAux term.length b.length b).flatten = b :=
    chunksOfAux_flatten term.length hk b.length b le_rfl
  have hlens : ∀ ch ∈ chunksOfAux term.length b.length b, ch.length = term.length :=
    chunksOfAux_length_mem term.length hk b.length b le_rfl hdvd
  have hne : ∀ ch ∈ chunksOfAux term.length b.length b, ch ≠ term := by
    intro ch hch heq
    obtain ⟨pre, post, hd⟩ := chunksOfAux_decomp term.length b.length b ch hch
    rw [heq] at hd
    rw [hd, hasSub_of_decomp] at hsub
    cases hsub
  have hcount : (chunksOfAux term.length b.length b).length = b.length / term.length :=
    chunksOfAux_count term.length hk b.length b le_rfl hdvd
  have hscan := readStringBytes_chunks m term (chunksOfAux term.length b.length b) addr fuel
    hlens hne (by rw [hflat]; exact hmem) (by rw [hcount]; exact hfuel)
  rw [readString, hscan, hflat]
  rfl

theorem claimC3_witness :
    readString hiMemN 0x100 [0] 5 = some (utf8DecodeIgnore [0x68, 0x69]) :=
  claimC3_read_string_amended hiMemN 0x100 5 [0] [0x68, 0x69] (by decide) (by decide)
    (by decide) (by decide)

/-- C4: whenever the interpreter succeeds, `sprintf` writes the interpreted
text plus one terminating null to the buffer address, encoded as UTF-8 when
the wide flag is clear and UTF-16LE when it is set, and returns the
character count of the interpreted text (terminator excluded); in
particular `sprintf(addr, "%s", [ptr_to("hi")])` writes the bytes of
`"hi"` plus the encoding-appropriate null terminator and returns 2, in
both widths. -/
theorem claimC4_sprintf :
    (∀ (m : Mem) (fuel buff : Nat) (format : List Char) (args : List PyVal) (w : Bool)
        (out : List Char), commonPrintf m fuel format args w = .ok out →
      sprintf m fuel buff format args w =
        .ok (memWrite m buff ((if w then utf16leEncode else utf8Encode) (out ++ ['\x00'])),
          out.length)) ∧
    (sprintf hiMemN 10 0 ['%', 's'] [.int 0x100] false =
        .ok (memWrite hiMemN 0 [0x68, 0x69, 0x00], 2) ∧
      memRead (memWrite hiMemN 0 [0x68, 0x69, 0x00]) 0 3 = [0x68, 0x69, 0x00]) ∧
    (sprintf wideMemHi 10 0 ['%', 's'] [.int 0x100] true =
        .ok (memWrite wideMemHi 0 [0x68, 0x00, 0x69, 0x00, 0x00, 0x00], 2) ∧
      memRead (memWrite wideMemHi 0 [0x68, 0x00, 0x69, 0x00, 0x00, 0x00]) 0 6 =
        [0x68, 0x00, 0x69, 0x00, 0x00, 0x00]) := by
  refine ⟨?_, ⟨rfl, by decide⟩, ⟨rfl, by decide⟩⟩
  intro m fuel buff format args w out h
  simp [sprintf, h]

theorem claimC4_witness :
    sprintf m0 5 7 [] [] false =
      .ok (memWrite m0 7
          ((if false then utf16leEncode else utf8Encode) (([] : List Char) ++ ['\x00'])),
        ([] : List Char).length) :=
  claimC4_sprintf.1 m0 5 7 [] [] false [] rfl

/-- C5 counterexample: the round-trip fails as universally stated.  With a
null character in the interpreted text (format `"\x00"`, no conversions)
the narrow read stops at the embedded null and returns `""`; with the
non-ASCII interpreted text `"é"` the wide reader decodes the UTF-16LE
bytes leniently as UTF-8 and then strips nulls, returning `""`. -/
theorem claimC5_counterexample :
    (commonPrintf m0 5 ['\x00'] [] false = .ok ['\x00'] ∧
      sprintf m0 5 0 ['\x00'] [] false = .ok (memWrite m0 0 [0, 0], 1) ∧
      readCString (memWrite m0 0 [0, 0]) 0 5 = some [] ∧
      (some [] : Option (List Char)) ≠ some ['\x00']) ∧
    (commonPrintf m0 5 [Char.ofNat 0xE9] [] true = .ok [Char.ofNat 0xE9] ∧
      sprintf m0 5 0 [Char.ofNat 0xE9] [] true = .ok (memWrite m0 0 [0xE9, 0, 0, 0], 1) ∧
      readWString (memWrite m0 0 [0xE9, 0, 0, 0]) 0 5 = some [] ∧
      (some [] : Option (List Char)) ≠ some [Char.ofNat 0xE9]) := by
  exact ⟨⟨by decide, rfl, by decide, by decide⟩, ⟨by decide, rfl, by decide, by decide⟩⟩

theorem flatten_map_singleton_nat (l : List Nat) :
    (l.map fun b => [b]).flatten = l := by
  induction l with
  | nil => simp
  | cons b bs ih => simp [ih]

theorem utf8EncodeChar_pos (c : Char) (hc : 0 < c.toNat) :
    ∀ b ∈ utf8EncodeChar c, 0 < b := by
  intro b hb
  simp only [utf8EncodeChar] at hb
  split at hb
  · simp only [List.mem_cons, List.not_mem_nil, or_false] at hb
    omega
  · split at hb
    · simp only [List.mem_cons, List.not_mem_nil, or_false] at hb
      rcases hb with hb | hb <;> omega
    · split at hb
      · simp only [List.mem_cons, List.not_mem_nil, or_false] at hb
        rcases hb with hb | hb | hb <;> omega
      · simp only [List.mem_cons, List.not_mem_nil, or_false] at hb
        rcases hb with hb | hb | hb | hb <;> omega

theorem utf8EncodeChar_length_pos (c : Char) : 0 < (utf8EncodeChar c).length := by
  simp only [utf8EncodeChar]
  split
  · simp
  · split
    · simp
    · split <;> simp

theorem utf8Encode_length_ge (l : List Char) : l.length ≤ (utf8Encode l).length := by
  induction l with
  | nil => simp [utf8Encode]
  | cons c cs ih =>
    have hc := utf8EncodeChar_length_pos c
    simp only [utf8Encode, List.map_cons, List.flatten_cons, List.length_append,
      List.length_cons] at ih ⊢
    omega

theorem utf8DecodeIgnoreAux_encodeChar (c : Char) (rest : List Nat) (f : Nat) :
    utf8DecodeIgnoreAux (f + 1) (utf8EncodeChar c ++ rest) =
      c :: utf8DecodeIgnoreAux f rest := by
  have hval : c.toNat < 0xD800 ∨ (0xDFFF < c.toNat ∧ c.toNat < 0x110000) := c.valid
  by_cases h1 : c.toNat < 0x80
  · have henc : utf8EncodeChar c = [c.toNat] := by
      simp only [utf8EncodeChar]
      rw [if_pos h1]
    rw [henc, List.cons_append, List.nil_append]
    simp only [utf8DecodeIgnoreAux, if_pos h1, Char.ofNat_toNat]
  · by_cases h2 : c.toNat < 0x800
    · have henc : utf8EncodeChar c = [0xC0 + c.toNat / 0x40, 0x80 + c.toNat % 0x40] := by
        simp only [utf8EncodeChar]
        rw [if_neg h1, if_pos h2]
      have hb1a : ¬ (0xC0 + c.toNat / 0x40 < 0x80) := by omega
      have hb1b : ¬ (0xC0 + c.toNat / 0x40 < 0xC2) := by omega
      have hb1c : 0xC0 + c.toNat / 0x40 < 0xE0 := by omega
      have hb2 : 0x80 ≤ 0x80 + c.toNat % 0x40 ∧ 0x80 + c.toNat % 0x40 < 0xC0 := by omega
      rw [henc]
      show utf8DecodeIgnoreAux (f + 1)
          ((0xC0 + c.toNat / 0x40) :: (0x80 + c.toNat % 0x40) :: rest) =
        c :: utf8DecodeIgnoreAux f rest
      simp only [utf8DecodeIgnoreAux, if_neg hb1a, if_neg hb1b, if_pos hb1c, if_pos hb2]
      have harg : (0xC0 + c.toNat / 0x40 - 0xC0) * 0x40 + (0x80 + c.toNat % 0x40 - 0x80) =
          c.toNat := by omega
      rw [harg, Char.ofNat_toNat]
    · by_cases h3 : c.toNat < 0x10000
      · have henc : utf8EncodeChar c =
            [0xE0 + c.toNat / 0x1000, 0x80 + c.toNat / 0x40 % 0x40, 0x80 + c.toNat % 0x40] := by
          simp only [utf8EncodeChar]
          rw [if_neg h1, if_neg h2, if_pos h3]
        have hb1a : ¬ (0xE0 + c.toNat / 0x1000 < 0x80) := by omega
        have hb1b : ¬ (0xE0 + c.toNat / 0x1000 < 0xC2) := by omega
        have hb1c : ¬ (0xE0 + c.toNat / 0x1000 < 0xE0) := by omega
        have hb1d : 0xE0 + c.toNat / 0x1000 < 0xF0 := by omega
        have hb2 : (0x80 ≤ 0x80 + c.toNat / 0x40 % 0x40 ∧ 0x80 + c.toNat / 0x40 % 0x40 < 0xC0) ∧
            (0xE0 + c.toNat / 0x1000 = 0xE0 → 0xA0 ≤ 0x80 + c.toNat / 0x40 % 0x40) ∧
            (0xE0 + c.toNat / 0x1000 = 0xED → 0x80 + c.toNat / 0x40 % 0x40 < 0xA0) := by omega
        have hb3 : 0x80 ≤ 0x80 + c.toNat % 0x40 ∧ 0x80 + c.toNat % 0x40 < 0xC0 := by omega
        rw [henc]
        show utf8DecodeIgnoreAux (f + 1)
            ((0xE0 + c.toNat / 0x1000) :: (0x80 + c.toNat / 0x40 % 0x40) ::
              (0x80 + c.toNat % 0x40) :: rest) =
          c :: utf8DecodeIgnoreAux f rest
        simp only [utf8DecodeIgnoreAux, if_neg hb1a, if_neg hb1b, if_neg hb1c, if_pos hb1d,
          if_pos hb2, if_pos hb3]
        have harg : (0xE0 + c.toNat / 0x1000 - 0xE0) * 0x1000 +
            (0x80 + c.toNat / 0x40 % 0x40 - 0x80) * 0x40 + (0x80 + c.toNat % 0x40 - 0x80) =
            c.toNat := by omega
        rw [harg, Char.ofNat_toNat]
      · have hlt : c.toNat < 0x110000 := by omega
        have henc : utf8EncodeChar c =
            [0xF0 + c.toNat / 0x40000, 0x80 + c.toNat / 0x1000 % 0x40,
              0x80 + c.toNat / 0x40 % 0x40, 0x80 + c.toNat % 0x40] := by
          simp only [utf8EncodeChar]
          rw [if_neg h1, if_neg h2, if_neg h3]
        have hb1a : ¬ (0xF0 + c.toNat / 0x40000 < 0x80) := by omega
        have hb1b : ¬ (0xF0 + c.toNat / 0x40000 < 0xC2) := by omega
        have hb1c : ¬ (0xF0 + c.toNat / 0x40000 < 0xE0) := by omega
        have hb1d : ¬ (0xF0 + c.toNat / 0x40000 < 0xF0) := by omega
        have hb1e : 0xF0 + c.toNat / 0x40000 < 0xF5 := by omega
        have hb2 : (0x80 ≤ 0x80 + c.toNat / 0x1000 % 0x40 ∧
              0x80 + c.toNat / 0x1000 % 0x40 < 0xC0) ∧
            (0xF0 + c.toNat / 0x40000 = 0xF0 → 0x90 ≤ 0x80 + c.toNat / 0x1000 % 0x40) ∧
            (0xF0 + c.toNat / 0x40000 = 0xF4 → 0x80 + c.toNat / 0x1000 % 0x40 < 0x90) := by
          omega
        have hb3 : 0x80 ≤ 0x80 + c.toNat / 0x40 % 0x40 ∧
            0x80 + c.toNat / 0x40 % 0x40 < 0xC0 := by omega
        have hb4 : 0x80 ≤ 0x80 + c.toNat % 0x40 ∧ 0x80 + c.toNat % 0x40 < 0xC0 := by omega
        rw [henc]
        show utf8DecodeIgnoreAux (f + 1)
            ((0xF0 + c.toNat / 0x40000) :: (0x80 + c.toNat / 0x1000 % 0x40) ::
              (0x80 + c.toNat / 0x40 % 0x40) :: (0x80 + c.toNat % 0x40) :: rest) =
          c :: utf8DecodeIgnoreAux f rest
        simp only [utf8DecodeIgnoreAux, if_neg hb1a, if_neg hb1b, if_neg hb1c, if_neg hb1d,
          if_pos hb1e, if_pos hb2, if_pos hb3, if_pos hb4]
        have harg : (0xF0 + c.toNat / 0x40000 - 0xF0) * 0x40000 +
            (0x80 + c.toNat / 0x1000 % 0x40 - 0x80) * 0x1000 +
            (0x80 + c.toNat / 0x40 % 0x40 - 0x80) * 0x40 + (0x80 + c.toNat % 0x40 - 0x80) =
            c.toNat := by omega
        rw [harg, Char.ofNat_toNat]

theorem utf8Decode_encode :
    ∀ (l : List Char) (fuel : Nat), l.length ≤ fuel →
      utf8DecodeIgnoreAux fuel (utf8Encode l) = l := by
  intro l
  induction l with
  | nil =>
    intro fuel _
    cases fuel <;> simp [utf8Encode, utf8DecodeIgnoreAux]
  | cons c cs ih =>
    intro fuel hf
    simp only [List.length_cons] at hf
    obtain ⟨f, rfl⟩ : ∃ f, fuel = f + 1 := ⟨fuel - 1, by omega⟩
    have hsplit : utf8Encode (c :: cs) = utf8EncodeChar c ++ utf8Encode cs := by
      simp [utf8Encode]
    rw [hsplit, utf8DecodeIgnoreAux_encodeChar c (utf8Encode cs) f, ih f (by omega)]

/-- C5 (amended): the `sprintf`-then-read-back round-trip reproduces the
interpreted text whenever the text contains no null character and — when
the wide flag is set — every character is additionally ASCII.  (A null
character truncates the narrow read-back; the wide reader decodes the
written UTF-16LE bytes leniently as 8-bit text before stripping nulls,
which mangles any non-ASCII character, while the narrow UTF-8 write/read
pair is exact on all null-free text.) -/
theorem claimC5_roundtrip_amended (m : Mem) (fuel buff fuel2 : Nat) (format : List Char)
    (args : List PyVal) (w : Bool) (out : List Char) (m2 : Mem) (len : Nat)
    (hok : commonPrintf m fuel format args w = .ok out)
    (hnz : ∀ c ∈ out, 0 < c.toNat)
    (hascii : w = true → ∀ c ∈ out, c.toNat < 128)
    (hw : sprintf m fuel buff format args w = .ok (m2, len))
    (hfuel2 : (utf8Encode out).length < fuel2) :
    (if w then readWString m2 buff fuel2 else readCString m2 buff fuel2) = some out := by
  have hw2 : m2 = memWrite m buff ((if w then utf16leEncode else utf8Encode)
      (out ++ ['\x00'])) := by
    simp only [sprintf, hok, Except.ok.injEq, Prod.mk.injEq] at hw
    exact hw.1.symm
  cases w with
  | false =>
    simp only [if_false, Bool.false_eq_true] at hw2 ⊢
    subst hw2
    have hbytes_pos : ∀ b ∈ utf8Encode out, 0 < b := by
      intro b hb
      simp only [utf8Encode, List.mem_flatten, List.mem_map] at hb
      obtain ⟨bl, ⟨c, hcin, hbl⟩, hbmem⟩ := hb
      rw [← hbl] at hbmem
      exact utf8EncodeChar_pos c (hnz c hcin) b hbmem
    have henc : utf8Encode (out ++ ['\x00']) =
        ((utf8Encode out).map fun b => [b]).flatten ++ [0] := by
      have hsplit : utf8Encode (out ++ ['\x00']) = utf8Encode out ++ utf8Encode ['\x00'] := by
        simp [utf8Encode]
      have hnull : utf8Encode ['\x00'] = [0] := by decide
      rw [hsplit, hnull, flatten_map_singleton_nat]
    have hlens : ∀ ch ∈ ((utf8Encode out).map fun b => [b]),
        ch.length = ([0] : List Nat).length := by
      intro ch hch
      simp only [List.mem_map] at hch
      obtain ⟨b, _, hb⟩ := hch
      rw [← hb]
      rfl
    have hne : ∀ ch ∈ ((utf8Encode out).map fun b => [b]), ch ≠ [0] := by
      intro ch hch heq
      simp only [List.mem_map] at hch
      obtain ⟨b, hbin, hb⟩ := hch
      rw [heq] at hb
      have hpos := hbytes_pos b hbin
      injection hb with h0 _
      omega
    have hmemp : ∀ i,
        i < (((utf8Encode out).map fun (b : Nat) => [b]).flatten).length +
          ([0] : List Nat).length →
        memWrite m buff (utf8Encode (out ++ ['\x00'])) (buff + i) =
          (((utf8Encode out).map fun (b : Nat) => [b]).flatten ++ [0]).getD i 0 := by
      intro i hi
      rw [← henc]
      apply memWrite_read
      rw [henc, List.length_append]
      simpa using hi
    have hcnt : ((utf8Encode out).map fun (b : Nat) => [b]).length < fuel2 := by
      rw [List.length_map]
      exact hfuel2
    have hscan := readStringBytes_chunks (memWrite m buff (utf8Encode (out ++ ['\x00']))) [0]
      ((utf8Encode out).map fun b => [b]) buff fuel2 hlens hne hmemp hcnt
    rw [readCString, readString, hscan, flatten_map_singleton_nat]
    have hdec : utf8DecodeIgnore (utf8Encode out) = out := by
      rw [utf8DecodeIgnore]
      exact utf8Decode_encode out (utf8Encode out).length (utf8Encode_length_ge out)
    rw [Option.map_some', hdec]
  | true =>
    have hasc : ∀ c ∈ out, c.toNat < 128 := hascii rfl
    simp only [if_true] at hw2 ⊢
    subst hw2
    have henc : utf16leEncode (out ++ ['\x00']) =
        (out.map fun c => [c.toNat, 0]).flatten ++ [0, 0] := by
      have hsplit : utf16leEncode (out ++ ['\x00']) =
          utf16leEncode out ++ utf16leEncode ['\x00'] := by
        simp [utf16leEncode]
      rw [hsplit, utf16leEncode_ascii out hasc]
      rfl
    have hlens : ∀ ch ∈ (out.map fun c => [c.toNat, 0]),
        ch.length = ([0, 0] : List Nat).length := by
      intro ch hch
      simp only [List.mem_map] at hch
      obtain ⟨c, _, hc⟩ := hch
      rw [← hc]
      rfl
    have hne : ∀ ch ∈ (out.map fun c => [c.toNat, 0]), ch ≠ [0, 0] := by
      intro ch hch heq
      simp only [List.mem_map] at hch
      obtain ⟨c, hcin, hc⟩ := hch
      rw [heq] at hc
      have hpos := hnz c hcin
      injection hc with h0 _
      omega
    have hmemp : ∀ i,
        i < ((out.map fun c => [c.toNat, 0]).flatten).length + ([0, 0] : List Nat).length →
        memWrite m buff (utf16leEncode (out ++ ['\x00'])) (buff + i) =
          ((out.map fun (c : Char) => [c.toNat, 0]).flatten ++ [0, 0]).getD i 0 := by
      intro i hi
      rw [← henc]
      apply memWrite_read
      rw [henc, List.length_append]
      simpa using hi
    have hcnt : (out.map fun c => [c.toNat, 0]).length < fuel2 := by
      rw [List.length_map]
      have hlen8 : (utf8Encode out).length = out.length := by
        rw [utf8Encode_ascii out hasc, List.length_map]
      rw [hlen8] at hfuel2
      exact hfuel2
    have hscan := readStringBytes_chunks (memWrite m buff (utf16leEncode (out ++ ['\x00'])))
      [0, 0] (out.map fun c => [c.toNat, 0]) buff fuel2 hlens hne hmemp hcnt
    rw [readWString, readString, hscan]
    have hdec : (utf8DecodeIgnore ((out.map fun c => [c.toNat, 0]).flatten)).filter
        (fun c => c != '\x00') = out := by
      rw [utf8DecodeIgnore]
      apply utf8DecodeIgnoreAux_wide_filter out _ (fun c hc => ⟨hnz c hc, hasc c hc⟩)
      rw [flatten_map_pair_length]
    rw [Option.map_some', Option.map_some', hdec]

theorem claimC5_witness :
    readCString (memWrite m0 0 [0xC3, 0xA9, 0x00]) 0 5 = some [Char.ofNat 0xE9] :=
  claimC5_roundtrip_amended m0 5 0 5 [Char.ofNat 0xE9] [] false [Char.ofNat 0xE9]
    (memWrite m0 0 [0xC3, 0xA9, 0x00]) 1 (by decide) (by decide) (by decide) rfl (by decide)

/-- C6: before final substitution the interpreter rewrites every literal
`%llx` to `%x` and every literal `%p` to the hash-prefixed hex conversion
`%#x`; consequently interpreting `"%llx"` with `[255]` yields `"ff"` and
interpreting `"%p"` with `[0x1000]` yields `"0x1000"`, for any memory,
fuel and width flag. -/
theorem claimC6_normalization :
    normalizeFmt ['%', 'l', 'l', 'x'] = ['%', 'x'] ∧
    normalizeFmt ['%', 'p'] = ['%', '#', 'x'] ∧
    normalizeFmt ("a%llxb%pc".toList) = ("a%xb%#xc".toList) ∧
    (∀ (m : Mem) (fuel : Nat) (w : Bool),
      commonPrintf m fuel ['%', 'l', 'l', 'x'] [.int 255] w = .ok ['f', 'f'] ∧
      commonPrintf m fuel ['%', 'p'] [.int 4096] w = .ok ['0', 'x', '1', '0', '0', '0']) := by
  refine ⟨by decide, by decide, by decide, fun m fuel w => ⟨rfl, rfl⟩⟩

/-- C7: `print_function` strips a leading `hook_` from the name, renders
named arguments as `name = value` and synthetic `__qlva_`-named arguments
as the bare value, joins them with `", "`, renders an integer return value
in hexadecimal and appends `" = <ret>"` only when a return value is
present, appends `" (PASSTHRU)"` only when the flag is set, and prepends
the zero-padded hexadecimal address only when verbosity reaches the debug
threshold; the spec's example invocation renders accordingly. -/
theorem claimC7_print_function :
    renderCall 32 1 4 0x4010 ("hook_strcpy".toList)
        [("dst".toList, "0x2000".toList), ("__qlva_0".toList, "0x3000".toList)] none false =
      "strcpy(dst = 0x2000, 0x3000)".toList ∧
    renderCall 32 1 4 0x4010 ("hook_strcpy".toList)
        [("dst".toList, "0x2000".toList), ("__qlva_0".toList, "0x3000".toList)]
        (some (.int 5)) false =
      "strcpy(dst = 0x2000, 0x3000) = 0x5".toList ∧
    renderCall 32 1 4 0x4010 ("hook_strcpy".toList)
        [("dst".toList, "0x2000".toList), ("__qlva_0".toList, "0x3000".toList)] none true =
      "strcpy(dst = 0x2000, 0x3000) (PASSTHRU)".toList ∧
    renderCall 32 4 4 0x4010 ("hook_strcpy".toList)
        [("dst".toList, "0x2000".toList), ("__qlva_0".toList, "0x3000".toList)] none false =
      "0x00004010: strcpy(dst = 0x2000, 0x3000)".toList := by
  refine ⟨by decide, by decide, by decide, by decide⟩

/-- C8: wide-string extraction never returns text containing a null
character: `read_wstring` strips every null left by the paired-byte
decode before returning. -/
theorem claimC8_wstring_no_null (m : Mem) (addr fuel : Nat) (s : List Char)
    (h : readWString m addr fuel = some s) : '\x00' ∉ s := by
  rw [readWString] at h
  cases ho : readString m addr [0, 0] fuel with
  | none =>
    rw [ho] at h
    cases h
  | some t =>
    rw [ho, Option.map_some'] at h
    cases h
    intro hmem
    rcases List.mem_filter.mp hmem with ⟨_, hp⟩
    simp at hp

theorem claimC8_witness : '\x00' ∉ ([] : List Char) :=
  claimC8_wstring_no_null m0 0 5 [] (by decide)

/-- C9: if the number of conversion specifiers the final substitution
would consume from the normalized format string differs from the number
of arguments (which the `%s` resolution pass leaves unchanged in count),
`__common_printf` never succeeds: the formatting error propagates to the
caller rather than being caught or turned into silent truncation. -/
theorem claimC9_arity_error (m : Mem) (fuel : Nat) (format : List Char) (args : List PyVal)
    (w : Bool) (h : specArity (normalizeFmt format) ≠ args.length) :
    ∀ out, commonPrintf m fuel format args w ≠ .ok out := by
  intro out hok
  simp only [commonPrintf] at hok
  cases hres : resolveLoop (strReader m fuel w) (fmtSegments format) args 0 with
  | error e =>
    simp only [hres] at hok
    exact Except.noConfusion hok
  | ok args2 =>
    simp only [hres] at hok
    cases hfmt : pyFormat (normalizeFmt format) args2 with
    | error e =>
      simp only [hfmt] at hok
      exact Except.noConfusion hok
    | ok s =>
      have hlen : args2.length = args.length :=
        (resolveLoop_ok_spec (strReader m fuel w) (fmtSegments format) args args2 0 hres).1
      rw [pyFormat] at hfmt
      have harity := pyFormatAux_ok_arity (normalizeFmt format).length (normalizeFmt format)
        args2 s hfmt
      exact h (by rw [specArity, harity, hlen])

theorem claimC9_witness : commonPrintf m0 5 ['%', 'd'] [] false ≠ .ok [] :=
  claimC9_arity_error m0 5 ['%', 'd'] [] false (by decide) []

/-- C10: when the argument list has exactly as many elements as there are
`%` characters in the format string (the arity `va_list` produces), every
index the `%s` resolution pass uses is in bounds, so the loop can never
fail with the out-of-range (IndexError) branch. -/
theorem claimC10_index_safety (m : Mem) (fuel : Nat) (w : Bool) (format : List Char)
    (args : List PyVal) (h : args.length = countChar '%' format) :
    resolveLoop (strReader m fuel w) (fmtSegments format) args 0 ≠ .error .indexErr := by
  apply resolveLoop_no_indexErr
  rw [fmtSegments_length, ← h]
  omega

theorem claimC10_witness :
    resolveLoop (strReader m0 3 false) (fmtSegments ['%', 'd']) [PyVal.int 5] 0 ≠
      .error .indexErr :=
  claimC10_index_safety m0 3 false ['%', 'd'] [PyVal.int 5] (by decide)
